import Mathlib

/-!
Verification development for the `overlay` / `overlayUTF8` string functions
(src/src/Functions/overlay.cpp).

The embedding models a string as its list of bytes (`List Nat`, each byte a
value below 256), a string column as either one constant string or one string
per row, and an integer column as either one constant `Int` (the value of
`ColumnConst::getInt`, an `Int64`) or one `Int` per row.  The output column
`ColumnString` is modelled concretely by its character buffer `res_data` and
its cumulative end-offset array `res_offsets`, exactly as the source writes
them (each row's bytes followed by one zero terminator, `res_offsets[i]` the
total number of bytes written after row `i`).
-/

namespace Overlay

/-- Bytes of one string; a row of a string column. -/
abbrev Bytes := List Nat

/-- Unsigned 64-bit (`size_t`) value of a signed 64-bit integer,
as produced by `static_cast<size_t>` in the source. -/
def toSizeT (x : Int) : Nat := (x % (2 ^ 64 : Int)).toNat

/-- Literal translation of `getValidOffset` (overlay.cpp lines 200-216), with
every `size_t` cast and every piece of `size_t` arithmetic made explicit as
arithmetic modulo `2 ^ 64`:
`-static_cast<size_t>(offset)` is `(2 ^ 64 - toSizeT offset) % 2 ^ 64`,
`input_size + 1` and `input_size + offset` are computed modulo `2 ^ 64`, and
the `offset - 1` of the positive branch is `Int64` arithmetic whose result is
converted to `size_t` on return. -/
def getValidOffsetSizeT (offset : Int) (input_size : Nat) : Nat :=
  if 0 < offset then
    if (input_size + 1) % 2 ^ 64 < toSizeT offset then input_size
    else toSizeT (offset - 1)
  else
    if input_size < (2 ^ 64 - toSizeT offset) % 2 ^ 64 then 0
    else (input_size + toSizeT offset) % 2 ^ 64

/-- The offset resolver `getValidOffset` (overlay.cpp lines 200-216) in its
mathematical form: for every `Int64` offset (in particular the most negative
one) and every `size_t`-representable input size the `size_t` wraparound in
the source is unobservable, so the negative branch is plain subtraction of
`(-offset).toNat`.  The lemma `getValidOffset_eq_sizeT` below proves this
definition equal to the literal translation `getValidOffsetSizeT` on that
whole domain; all batch-level definitions use this form. -/
def getValidOffset (offset : Int) (input_size : Nat) : Nat :=
  if 0 < offset then
    if input_size + 1 < offset.toNat then input_size
    else offset.toNat - 1
  else
    if input_size < (-offset).toNat then 0
    else input_size - (-offset).toNat

/-- Continuation bytes of UTF-8 have their two top bits equal to `10`. -/
def isContinuationByte (b : Nat) : Bool := b % 256 / 64 == 2

/-- Modelled from the spec: `UTF8::countCodePoints` (Common/UTF8Helpers.h) is
not under src/; per the spec's data model a string's length in code points is
the number of code-point lead bytes, i.e. of bytes that are not UTF-8
continuation bytes. -/
def countCodePoints (bs : Bytes) : Nat :=
  (bs.filter (fun b => !isContinuationByte b)).length

/-- Modelled from the spec: `UTF8StringSource::skipCodePointsForward`
(Functions/GatherUtils/Sources.h) is not under src/; per the spec the forward
scan consumes `n` code points from the start of the input (each one lead byte
plus its continuation bytes) and returns the number of bytes consumed,
clamping at the input's end. -/
def cpForwardBytes : Nat → Bytes → Nat
  | 0, _ => 0
  | _ + 1, [] => 0
  | n + 1, _ :: rest =>
      let cont := rest.takeWhile isContinuationByte
      1 + cont.length + cpForwardBytes n (rest.drop cont.length)

/-- Modelled from the spec: helper for the backward scan, working on the
reversed byte list; each code point seen from the end is a run of
continuation bytes followed by one lead byte, and the scan stops at the
input's start. -/
def cpBackwardAux : Nat → Bytes → Nat
  | 0, _ => 0
  | _ + 1, [] => 0
  | n + 1, l =>
      let cont := l.takeWhile isContinuationByte
      match l.drop cont.length with
      | [] => cont.length
      | _ :: rest2 => cont.length + 1 + cpBackwardAux n rest2

/-- Modelled from the spec: `UTF8StringSource::skipCodePointsBackward`
(Functions/GatherUtils/Sources.h) is not under src/; per the spec the
backward scan consumes `n` code points from the end of the input and returns
the number of bytes consumed, clamping at the input's start. -/
def cpBackwardBytes (n : Nat) (bs : Bytes) : Nat := cpBackwardAux n bs.reverse

/-- Translation of `getSliceSize` (overlay.cpp lines 219-225): length of a
slice in bytes, or in code points in UTF-8 mode. -/
def getSliceSize (is_utf8 : Bool) (data : Bytes) : Nat :=
  if is_utf8 then countCodePoints data else data.length

/-- Per-row removal-length resolution, shared verbatim by the four batch
variants (e.g. overlay.cpp lines 632-640 for vectorVector): three-argument
calls use the replacement's length; a constant fourth argument is used as-is
(it is non-negative there, the negative constant being redirected by the
guard at the top of each variant, so the `Int64` to `size_t` conversion is
value-preserving `toNat`); a per-row fourth argument is used when
non-negative, otherwise the replacement's length. -/
def rowValidLength (has_three_args length_is_const : Bool)
    (const_length row_length : Int) (replace_size : Nat) : Nat :=
  if has_three_args then replace_size
  else if length_is_const then const_length.toNat
  else if 0 ≤ row_length then row_length.toNat else replace_size

/-- Translation of the byte-mode splice of one row (e.g. overlay.cpp lines
642-664): the suffix starts `suffix_size` units after the removed region and
is empty when the removal overruns the input's tail; the row ends with one
zero terminator. -/
def spliceBytes (input replace : Bytes) (prefix_size valid_length : Nat) : Bytes :=
  let suffix_size :=
    if input.length < prefix_size + valid_length then 0
    else input.length - prefix_size - valid_length
  input.take prefix_size ++ replace
    ++ (input.drop (prefix_size + valid_length)).take suffix_size ++ [0]

/-- Translation of the UTF-8-mode splice of one row (e.g. overlay.cpp lines
666-691): the prefix byte count is the forward scan over `prefix_size` code
points (clamped to the input's byte length, line 671), the suffix byte count
is the backward scan over `suffix_size` code points, and the replacement is
copied in full by its byte length. -/
def spliceUTF8 (input replace : Bytes) (prefix_size suffix_size : Nat) : Bytes :=
  let prefix_bytes := min (cpForwardBytes prefix_size input) input.length
  let suffix_bytes := cpBackwardBytes suffix_size input
  input.take prefix_bytes ++ replace
    ++ input.drop (input.length - suffix_bytes) ++ [0]

/-- One iteration of the per-row loop shared (macro-expanded) by the four
batch variants of overlay.cpp: measure input and replacement, resolve the
offset and the removal length, compute the clamped suffix size and splice.
`offset_val` is the row's offset (the constant one or the row's column
entry), `row_length` the row's fourth-argument entry when per-row. -/
def overlayRow (is_utf8 has_three_args length_is_const : Bool)
    (input replace : Bytes) (offset_val const_length row_length : Int) : Bytes :=
  let input_size := getSliceSize is_utf8 input
  let replace_size := getSliceSize is_utf8 replace
  let valid_offset := getValidOffset offset_val input_size
  let valid_length :=
    rowValidLength has_three_args length_is_const const_length row_length replace_size
  if is_utf8 then
    let suffix_size :=
      if input_size < valid_offset + valid_length then 0
      else input_size - valid_offset - valid_length
    spliceUTF8 input replace valid_offset suffix_size
  else
    spliceBytes input replace valid_offset valid_length

/-- The output `ColumnString` under construction: character buffer and
cumulative end offsets, as written by the source's loops. -/
structure OutputBatch where
  res_data : Bytes
  res_offsets : List Nat
deriving DecidableEq

/-- Appending one finished row to the output column: the row's bytes go at
the end of the buffer and the new cumulative size is recorded
(`res_offsets[i] = res_offset` after the row, overlay.cpp lines 693-696). -/
def appendRow (out : OutputBatch) (row : Bytes) : OutputBatch :=
  { res_data := out.res_data ++ row
    res_offsets := out.res_offsets ++ [out.res_data.length + row.length] }

/-- The per-row loop of a batch variant: rows are processed in order from an
empty output. -/
def runBatch (rows : Nat) (rowFn : Nat → Bytes) : OutputBatch :=
  (List.range rows).foldl (fun out i => appendRow out (rowFn i)) ⟨[], []⟩

/-- Loop shared by the four batch variants of overlay.cpp: the variants
differ only in whether input and replacement come from a constant or from
the row (abstracted as `inputAt`/`replaceAt`), the loop bodies being
macro-identical.  Constant-offset and constant-length hoisting in the source
is common-subexpression elimination with no observable effect, so the row
values are recomputed here uniformly. -/
def variantBody (is_utf8 has_three_args offset_is_const length_is_const : Bool)
    (rows : Nat) (inputAt replaceAt : Nat → Bytes)
    (column_offset column_length : List Int)
    (const_offset const_length : Int) : OutputBatch :=
  runBatch rows (fun i =>
    overlayRow is_utf8 has_three_args length_is_const
      (inputAt i) (replaceAt i)
      (if offset_is_const then const_offset else column_offset.getD i 0)
      const_length (column_length.getD i 0))

/-- Guard at the top of each of the four variants (e.g. overlay.cpp lines
584-599): with four arguments and a constant negative length the variant
re-invokes itself with `has_three_args = true`, `length_is_const = false`
and `const_length = -1`; that recursive call's guard is false, so the
recursion of depth one is written here as a single delegation. -/
def variantFull (is_utf8 has_three_args offset_is_const length_is_const : Bool)
    (rows : Nat) (inputAt replaceAt : Nat → Bytes)
    (column_offset column_length : List Int)
    (const_offset const_length : Int) : OutputBatch :=
  if has_three_args = false ∧ length_is_const = true ∧ const_length < 0 then
    variantBody is_utf8 true offset_is_const false rows inputAt replaceAt
      column_offset column_length const_offset (-1)
  else
    variantBody is_utf8 has_three_args offset_is_const length_is_const rows
      inputAt replaceAt column_offset column_length const_offset const_length

/-- Translation of `constantConstant` (overlay.cpp lines 227-337): constant
input and constant replacement. -/
def constantConstant (is_utf8 has_three_args offset_is_const length_is_const : Bool)
    (rows : Nat) (input replace : Bytes)
    (column_offset column_length : List Int)
    (const_offset const_length : Int) : OutputBatch :=
  variantFull is_utf8 has_three_args offset_is_const length_is_const rows
    (fun _ => input) (fun _ => replace) column_offset column_length
    const_offset const_length

/-- Translation of `vectorConstant` (overlay.cpp lines 339-454): per-row
input and constant replacement. -/
def vectorConstant (is_utf8 has_three_args offset_is_const length_is_const : Bool)
    (rows : Nat) (input_rows : List Bytes) (replace : Bytes)
    (column_offset column_length : List Int)
    (const_offset const_length : Int) : OutputBatch :=
  variantFull is_utf8 has_three_args offset_is_const length_is_const rows
    (fun i => input_rows.getD i []) (fun _ => replace) column_offset column_length
    const_offset const_length

/-- Translation of `constantVector` (overlay.cpp lines 456-568): constant
input and per-row replacement. -/
def constantVector (is_utf8 has_three_args offset_is_const length_is_const : Bool)
    (rows : Nat) (input : Bytes) (replace_rows : List Bytes)
    (column_offset column_length : List Int)
    (const_offset const_length : Int) : OutputBatch :=
  variantFull is_utf8 has_three_args offset_is_const length_is_const rows
    (fun _ => input) (fun i => replace_rows.getD i []) column_offset column_length
    const_offset const_length

/-- Translation of `vectorVector` (overlay.cpp lines 570-698): per-row input
and per-row replacement. -/
def vectorVector (is_utf8 has_three_args offset_is_const length_is_const : Bool)
    (rows : Nat) (input_rows replace_rows : List Bytes)
    (column_offset column_length : List Int)
    (const_offset const_length : Int) : OutputBatch :=
  variantFull is_utf8 has_three_args offset_is_const length_is_const rows
    (fun i => input_rows.getD i []) (fun i => replace_rows.getD i [])
    column_offset column_length const_offset const_length

/-- A string argument column: one constant string, or one string per row. -/
inductive StrCol where
  | const : Bytes → StrCol
  | vec : List Bytes → StrCol
deriving DecidableEq

/-- An integer argument column: one constant value, or one value per row. -/
inductive IntCol where
  | const : Int → IntCol
  | vec : List Int → IntCol
deriving DecidableEq

/-- Whether the column is a `ColumnConst`. -/
def IntCol.isConst : IntCol → Bool
  | .const _ => true
  | .vec _ => false

/-- The constant value read by `getInt(0)` when the column is constant; `-1`
otherwise, matching the initialization `Int64 offset = -1` / `length = -1`
in `executeImpl` (overlay.cpp lines 71-72). -/
def IntCol.constVal : IntCol → Int
  | .const c => c
  | .vec _ => -1

/-- The per-row values when the column is per-row; never read otherwise. -/
def IntCol.vecVal : IntCol → List Int
  | .const _ => []
  | .vec v => v

/-- Translation of `executeImpl` (overlay.cpp lines 51-194): an empty batch
returns an empty column at once; otherwise the variant matching the shapes
of input and replacement runs, instantiated with the constancy of the offset
column and (with four arguments) of the length column. -/
def executeImpl (is_utf8 : Bool) (rows : Nat) (input replace : StrCol)
    (offset : IntCol) (length : Option IntCol) : OutputBatch :=
  if rows = 0 then ⟨[], []⟩
  else
    let has_three_args := length.isNone
    let length_is_const := match length with
      | some c => c.isConst
      | none => false
    let const_length := match length with
      | some c => c.constVal
      | none => -1
    let column_length := match length with
      | some c => c.vecVal
      | none => []
    match input, replace with
    | .const s, .const r =>
        constantConstant is_utf8 has_three_args offset.isConst length_is_const rows
          s r offset.vecVal column_length offset.constVal const_length
    | .const s, .vec rr =>
        constantVector is_utf8 has_three_args offset.isConst length_is_const rows
          s rr offset.vecVal column_length offset.constVal const_length
    | .vec ir, .const r =>
        vectorConstant is_utf8 has_three_args offset.isConst length_is_const rows
          ir r offset.vecVal column_length offset.constVal const_length
    | .vec ir, .vec rr =>
        vectorVector is_utf8 has_three_args offset.isConst length_is_const rows
          ir rr offset.vecVal column_length offset.constVal const_length

/-- The scalar byte-mode function `overlay(s, replace, offset[, length])`: a
one-row batch of constants. -/
def overlay (s r : Bytes) (o : Int) (l : Option Int) : OutputBatch :=
  executeImpl false 1 (StrCol.const s) (StrCol.const r) (IntCol.const o)
    (l.map IntCol.const)

/-- The scalar code-point-mode function
`overlayUTF8(s, replace, offset[, length])`: a one-row batch of constants. -/
def overlayUTF8 (s r : Bytes) (o : Int) (l : Option Int) : OutputBatch :=
  executeImpl true 1 (StrCol.const s) (StrCol.const r) (IntCol.const o)
    (l.map IntCol.const)

/-- The output invariant stated by C10: one cumulative offset per row, the
offsets strictly increasing, the last offset equal to the buffer's size, and
the byte just before each row's end offset a zero terminator. -/
def WellFormedOutput (rows : Nat) (out : OutputBatch) : Prop :=
  out.res_offsets.length = rows ∧
  out.res_offsets.Chain' (· < ·) ∧
  out.res_offsets.getLastD 0 = out.res_data.length ∧
  ∀ i, i < rows → 1 ≤ out.res_offsets.getD i 0 ∧
    out.res_data.getD (out.res_offsets.getD i 0 - 1) 1 = 0

/-! Helper lemmas. -/

lemma getD_replicate {α : Type} (a d : α) {n i : Nat} (h : i < n) :
    (List.replicate n a).getD i d = a := by
  induction n generalizing i with
  | zero => omega
  | succ m ih =>
    cases i with
    | zero => rfl
    | succ j => simpa [List.replicate_succ, List.getD_cons_succ] using ih (by omega)

lemma runBatch_zero (f : Nat → Bytes) : runBatch 0 f = ⟨[], []⟩ := rfl

lemma runBatch_succ (n : Nat) (f : Nat → Bytes) :
    runBatch (n + 1) f = appendRow (runBatch n f) (f n) := by
  simp [runBatch, List.range_succ]

lemma runBatch_congr {rows : Nat} {f g : Nat → Bytes}
    (h : ∀ i, i < rows → f i = g i) : runBatch rows f = runBatch rows g := by
  induction rows with
  | zero => rfl
  | succ n ih =>
    rw [runBatch_succ, runBatch_succ, ih (fun i hi => h i (by omega)),
      h n (by omega)]

lemma getValidOffset_le (o : Int) (n : Nat) : getValidOffset o n ≤ n := by
  unfold getValidOffset
  split <;> split <;> omega

/-- For every `Int64` offset and every `size_t`-representable input size, the
literal size_t translation of the offset resolver agrees with its
mathematical form. -/
lemma getValidOffset_eq_sizeT (o : Int) (n : Nat)
    (h1 : -(2 ^ 63) ≤ o) (h2 : o < 2 ^ 63) (h3 : n + 1 < 2 ^ 64) :
    getValidOffsetSizeT o n = getValidOffset o n := by
  have e1 : (2 : Int) ^ 64 = 18446744073709551616 := by norm_num
  have e3 : (2 : Int) ^ 63 = 9223372036854775808 := by norm_num
  have e2 : (2 : Nat) ^ 64 = 18446744073709551616 := by norm_num
  rw [e3] at h1 h2
  rw [e2] at h3
  unfold getValidOffsetSizeT getValidOffset toSizeT
  rw [e1, e2]
  split_ifs <;> omega

end Overlay

namespace Overlay

/-! Claim theorems. -/

/-- C2: for every 64-bit signed offset (including the most negative value)
and every size_t-representable input length `n`, `getValidOffset` returns a
value in `[0, n]`: if `offset > 0` it returns `n` when `offset > n + 1` and
`offset - 1` otherwise; if `offset <= 0` it returns `0` when `-offset > n`
and `n + offset` otherwise.  No error is ever raised (the function is total).
Stated on the literal size_t translation `getValidOffsetSizeT` of
overlay.cpp lines 200-216. -/
theorem getValidOffset_correct (o : Int) (n : Nat)
    (h1 : -(2 ^ 63) ≤ o) (h2 : o < 2 ^ 63) (h3 : n + 1 < 2 ^ 64) :
    getValidOffsetSizeT o n ≤ n ∧
    (0 < o →
      ((n : Int) + 1 < o → getValidOffsetSizeT o n = n) ∧
      (o ≤ (n : Int) + 1 → (getValidOffsetSizeT o n : Int) = o - 1)) ∧
    (o ≤ 0 →
      ((n : Int) < -o → getValidOffsetSizeT o n = 0) ∧
      (-o ≤ (n : Int) → (getValidOffsetSizeT o n : Int) = (n : Int) + o)) := by
  rw [getValidOffset_eq_sizeT o n h1 h2 h3]
  unfold getValidOffset
  split_ifs <;> refine ⟨by omega, fun hpos => ⟨by omega, by omega⟩,
    fun hneg => ⟨by omega, by omega⟩⟩

/-- Witness for C2, at the most negative 64-bit offset. -/
theorem getValidOffset_correct_witness :
    (-(2 ^ 63) ≤ (-(2 ^ 63) : Int) ∧ (-(2 ^ 63) : Int) < 2 ^ 63 ∧
      (5 : Nat) + 1 < 2 ^ 64) ∧
    getValidOffsetSizeT (-(2 ^ 63)) 5 ≤ 5 := by
  refine ⟨⟨by norm_num, by norm_num, by norm_num⟩, ?_⟩
  exact (getValidOffset_correct (-(2 ^ 63)) 5 (by norm_num) (by norm_num)
    (by norm_num)).1

/-- C1: byte-mode splice correctness: for every input, replacement, prefix
length `p ≤ input_length` and removal length `L`, the spliced row is
`input[0, p) ++ replacement ++ input[p + L, input_length)` followed by one
zero terminator, the suffix being empty whenever `p + L > input_length`
(the removal is clamped to the input's tail, never an error). -/
theorem spliceBytes_correct (input replace : Bytes) (p L : Nat)
    (_hp : p ≤ input.length) :
    spliceBytes input replace p L
      = input.take p ++ replace ++ input.drop (p + L) ++ [0] ∧
    (input.length < p + L → input.drop (p + L) = []) := by
  constructor
  · simp only [spliceBytes]
    by_cases h : input.length < p + L
    · rw [if_pos h, List.drop_eq_nil_of_le (by omega)]
      simp
    · rw [if_neg h,
        @List.take_of_length_le _ (input.length - p - L) (input.drop (p + L))
          (by rw [List.length_drop]; omega)]
  · intro h
    exact List.drop_eq_nil_of_le (by omega)

/-- Witness for C1. -/
theorem spliceBytes_correct_witness :
    (1 ≤ ([6, 7, 8] : Bytes).length) ∧
    (spliceBytes [6, 7, 8] [9] 1 1
      = ([6, 7, 8] : Bytes).take 1 ++ [9] ++ ([6, 7, 8] : Bytes).drop (1 + 1)
        ++ [0] ∧
    (([6, 7, 8] : Bytes).length < 1 + 1 → ([6, 7, 8] : Bytes).drop (1 + 1) = [])) :=
  ⟨by decide, spliceBytes_correct [6, 7, 8] [9] 1 1 (by decide)⟩

/-- Rewriting one row under a change of offset argument that resolves to the
same valid offset. -/
lemma overlayRow_offset_congr (u h3 lic : Bool) (inp rep : Bytes)
    (o o' cl rl : Int)
    (h : getValidOffset o (getSliceSize u inp)
      = getValidOffset o' (getSliceSize u inp)) :
    overlayRow u h3 lic inp rep o cl rl = overlayRow u h3 lic inp rep o' cl rl := by
  simp only [overlayRow, h]

/-- Rewriting one row under a change of length arguments that resolve to the
same valid length. -/
lemma overlayRow_length_congr (u h3 lic h3' lic' : Bool) (inp rep : Bytes)
    (o cl rl cl' rl' : Int)
    (h : rowValidLength h3 lic cl rl (getSliceSize u rep)
      = rowValidLength h3' lic' cl' rl' (getSliceSize u rep)) :
    overlayRow u h3 lic inp rep o cl rl = overlayRow u h3' lic' inp rep o cl' rl' := by
  simp only [overlayRow, h]

/-- Expanding a constant offset column into an equal-valued per-row column
leaves every variant's output unchanged. -/
lemma variantFull_offset_expand (u h3 lic : Bool) (rows : Nat)
    (iAt rAt : Nat → Bytes) (co cl : List Int) (c c_l : Int) :
    variantFull u h3 true lic rows iAt rAt co cl c c_l
      = variantFull u h3 false lic rows iAt rAt (List.replicate rows c) cl (-1) c_l := by
  unfold variantFull
  split_ifs <;>
    exact runBatch_congr (fun i hi => by
      simp [List.getD_eq_getElem?_getD, List.getElem?_replicate, hi])

/-- Expanding a constant length column into an equal-valued per-row column
leaves every variant's output unchanged; a negative constant goes through
the three-argument delegation, a negative per-row value through the per-row
fallback to the replacement's length, with the same result. -/
lemma variantFull_length_expand (u oic : Bool) (rows : Nat)
    (iAt rAt : Nat → Bytes) (co : List Int) (c_o L : Int) :
    variantFull u false oic true rows iAt rAt co [] c_o L
      = variantFull u false oic false rows iAt rAt co (List.replicate rows L) c_o (-1) := by
  unfold variantFull
  by_cases hL : L < 0
  · rw [if_pos ⟨rfl, rfl, hL⟩, if_neg (by simp)]
    refine runBatch_congr (fun i hi => ?_)
    refine overlayRow_length_congr u true false false false _ _ _ _ _ _ _ ?_
    simp [rowValidLength, List.getD_eq_getElem?_getD, List.getElem?_replicate, hi]
    rw [if_neg (by omega)]
  · rw [if_neg (by simp [hL]), if_neg (by simp)]
    refine runBatch_congr (fun i hi => ?_)
    refine overlayRow_length_congr u false true false false _ _ _ _ _ _ _ ?_
    simp [rowValidLength, List.getD_eq_getElem?_getD, List.getElem?_replicate, hi]
    rw [if_pos (by omega)]

/-- C4: dispatch transparency: for every batch and every combination of the
constantConstant, constantVector, vectorConstant and vectorVector variants
(i.e. for every pair of input/replacement shapes), a constant offset column
produces exactly the same output as the same constant expanded into an
equal-valued per-row column, and likewise for the length column. -/
theorem dispatch_transparent (u : Bool) (rows : Nat) (input replace : StrCol) :
    (∀ (c : Int) (len : Option IntCol),
      executeImpl u rows input replace (IntCol.const c) len
        = executeImpl u rows input replace (IntCol.vec (List.replicate rows c)) len) ∧
    (∀ (off : IntCol) (L : Int),
      executeImpl u rows input replace off (some (IntCol.const L))
        = executeImpl u rows input replace off (some (IntCol.vec (List.replicate rows L)))) := by
  constructor
  · intro c len
    by_cases h0 : rows = 0
    · subst h0; rfl
    · cases input <;> cases replace <;>
        simp only [executeImpl, if_neg h0, constantConstant, constantVector,
          vectorConstant, vectorVector, IntCol.isConst, IntCol.constVal,
          IntCol.vecVal] <;>
        exact variantFull_offset_expand _ _ _ _ _ _ _ _ _ _
  · intro off L
    by_cases h0 : rows = 0
    · subst h0; rfl
    · cases input <;> cases replace <;>
        simp only [executeImpl, if_neg h0, constantConstant, constantVector,
          vectorConstant, vectorVector, IntCol.isConst, IntCol.constVal,
          IntCol.vecVal, Option.isNone] <;>
        exact variantFull_length_expand _ _ _ _ _ _ _ _

/-- C3: length resolution: a supplied per-row length that is non-negative is
used as the removal length; a negative one falls back to the replacement's
length, exactly as when the argument is absent; and a constant negative
length makes the entire batch behave as if the length argument were omitted
for every row. -/
theorem length_resolution_correct :
    (∀ (cl l : Int) (rs : Nat),
      (0 ≤ l → rowValidLength false false cl l rs = l.toNat) ∧
      (l < 0 → rowValidLength false false cl l rs
          = rowValidLength true false cl l rs ∧
        rowValidLength false false cl l rs = rs)) ∧
    (∀ (L : Int) (rl : Int) (rs : Nat), 0 ≤ L →
      rowValidLength false true L rl rs = L.toNat) ∧
    (∀ (u : Bool) (rows : Nat) (input replace : StrCol) (off : IntCol) (L : Int),
      L < 0 →
        executeImpl u rows input replace off (some (IntCol.const L))
          = executeImpl u rows input replace off none) := by
  refine ⟨fun cl l rs => ⟨fun h => ?_, fun h => ⟨?_, ?_⟩⟩,
    fun L rl rs h => ?_, fun u rows input replace off L hL => ?_⟩
  · simp [rowValidLength, h]
  · simp [rowValidLength]
    omega
  · simp [rowValidLength]
    omega
  · simp [rowValidLength, h]
  · by_cases h0 : rows = 0
    · subst h0; rfl
    · cases input <;> cases replace <;>
        simp only [executeImpl, if_neg h0, constantConstant, constantVector,
          vectorConstant, vectorVector, IntCol.isConst, IntCol.constVal,
          IntCol.vecVal, Option.isNone] <;>
        simp [variantFull, hL]

/-- Witness for C3: a constant negative length behaves as an absent length
argument. -/
theorem length_resolution_correct_witness :
    ((-4 : Int) < 0) ∧
    executeImpl false 2 (StrCol.const [1]) (StrCol.const [2, 3])
        (IntCol.const 1) (some (IntCol.const (-4)))
      = executeImpl false 2 (StrCol.const [1]) (StrCol.const [2, 3])
        (IntCol.const 1) none :=
  ⟨by decide, length_resolution_correct.2.2 false 2 (StrCol.const [1])
    (StrCol.const [2, 3]) (IntCol.const 1) (-4) (by decide)⟩

/-- ASCII bytes are not UTF-8 continuation bytes. -/
lemma isContinuationByte_ascii {b : Nat} (h : b < 128) :
    isContinuationByte b = false := by
  unfold isContinuationByte
  rw [beq_eq_false_iff_ne]
  omega

/-- On an all-ASCII string the code-point count is the byte count. -/
lemma countCodePoints_ascii {s : Bytes} (h : ∀ b ∈ s, b < 128) :
    countCodePoints s = s.length := by
  have hfil : s.filter (fun b => !isContinuationByte b) = s :=
    List.filter_eq_self.mpr
      (fun b hb => by simp [isContinuationByte_ascii (h b hb)])
  unfold countCodePoints
  rw [hfil]

/-- On an all-ASCII string the forward scan over n code points consumes
min n length bytes. -/
lemma cpForwardBytes_ascii {s : Bytes} (h : ∀ b ∈ s, b < 128) (n : Nat) :
    cpForwardBytes n s = min n s.length := by
  induction n generalizing s with
  | zero => simp [cpForwardBytes]
  | succ m ih =>
    cases s with
    | nil => simp [cpForwardBytes]
    | cons a rest =>
      have hrest : ∀ b ∈ rest, b < 128 := fun b hb => h b (List.mem_cons_of_mem a hb)
      have hcont : rest.takeWhile isContinuationByte = [] := by
        cases rest with
        | nil => rfl
        | cons c cs =>
          rw [List.takeWhile_cons,
            isContinuationByte_ascii (hrest c (List.mem_cons_self c cs))]
          simp
      simp [cpForwardBytes, hcont, ih hrest]
      omega

/-- On an all-ASCII string the backward-scan helper over n code points
consumes min n length bytes. -/
lemma cpBackwardAux_ascii {s : Bytes} (h : ∀ b ∈ s, b < 128) (n : Nat) :
    cpBackwardAux n s = min n s.length := by
  induction n generalizing s with
  | zero => simp [cpBackwardAux]
  | succ m ih =>
    cases s with
    | nil => simp [cpBackwardAux]
    | cons a rest =>
      have ha := h a (List.mem_cons_self a rest)
      have hrest : ∀ b ∈ rest, b < 128 := fun b hb => h b (List.mem_cons_of_mem a hb)
      have hcont : (a :: rest).takeWhile isContinuationByte = [] := by
        rw [List.takeWhile_cons, isContinuationByte_ascii ha]
        simp
      simp [cpBackwardAux, hcont, ih hrest]
      omega

/-- On an all-ASCII string the backward scan over n code points consumes
min n length bytes. -/
lemma cpBackwardBytes_ascii {s : Bytes} (h : ∀ b ∈ s, b < 128) (n : Nat) :
    cpBackwardBytes n s = min n s.length := by
  unfold cpBackwardBytes
  rw [cpBackwardAux_ascii (fun b hb => h b (List.mem_reverse.mp hb)) n]
  simp

/-- On an all-ASCII input the UTF-8 splice with the clamped suffix size
coincides with the byte splice. -/
lemma splice_ascii (s r : Bytes) (hs : ∀ b ∈ s, b < 128) (vo vl : Nat)
    (hvo : vo ≤ s.length) :
    spliceUTF8 s r vo (if s.length < vo + vl then 0 else s.length - vo - vl)
      = spliceBytes s r vo vl := by
  simp only [spliceUTF8, spliceBytes, cpForwardBytes_ascii hs,
    cpBackwardBytes_ascii hs]
  have e1 : min (min vo s.length) s.length = vo := by omega
  rw [e1]
  by_cases h : s.length < vo + vl
  · rw [if_pos h]
    have e2 : min 0 s.length = 0 := by omega
    rw [e2, Nat.sub_zero, List.drop_length, List.take_zero]
  · rw [if_neg h]
    have e3 : min (s.length - vo - vl) s.length = s.length - vo - vl := by omega
    have e4 : s.length - (s.length - vo - vl) = vo + vl := by omega
    rw [e3, e4,
      @List.take_of_length_le _ (s.length - vo - vl) (s.drop (vo + vl))
        (by rw [List.length_drop]; omega)]

/-- On all-ASCII input and replacement, for identical offset and length
arguments, the UTF-8 row equals the byte row. -/
lemma overlayRow_ascii (h3 lic : Bool) (s r : Bytes)
    (hs : ∀ b ∈ s, b < 128) (hr : ∀ b ∈ r, b < 128) (o cl rl : Int) :
    overlayRow true h3 lic s r o cl rl = overlayRow false h3 lic s r o cl rl := by
  simp only [overlayRow, getSliceSize, if_true, Bool.false_eq_true, if_false,
    countCodePoints_ascii hs, countCodePoints_ascii hr]
  exact splice_ascii s r hs _ _ (getValidOffset_le o s.length)

/-- Batch-level form of the ASCII agreement, for every variant
instantiation with constant input and replacement. -/
lemma variantFull_ascii (h3 oic lic : Bool) (rows : Nat) (s r : Bytes)
    (hs : ∀ b ∈ s, b < 128) (hr : ∀ b ∈ r, b < 128)
    (co cl : List Int) (c_o c_l : Int) :
    variantFull true h3 oic lic rows (fun _ => s) (fun _ => r) co cl c_o c_l
      = variantFull false h3 oic lic rows (fun _ => s) (fun _ => r) co cl c_o c_l := by
  unfold variantFull
  split_ifs <;>
    exact runBatch_congr (fun i hi => overlayRow_ascii _ _ s r hs hr _ _ _)

/-- C6: UTF-8/byte-mode agreement on ASCII: for every input and replacement
consisting only of single-byte (ASCII) code points and every offset and
optional length argument, overlayUTF8 returns exactly the same output as
overlay. -/
theorem utf8_ascii_agreement (s r : Bytes)
    (hs : ∀ b ∈ s, b < 128) (hr : ∀ b ∈ r, b < 128) (o : Int) (l : Option Int) :
    overlayUTF8 s r o l = overlay s r o l := by
  unfold overlay overlayUTF8
  simp only [executeImpl, constantConstant, IntCol.isConst, IntCol.constVal,
    IntCol.vecVal, Option.isNone]
  rw [if_neg one_ne_zero, if_neg one_ne_zero]
  exact variantFull_ascii _ _ _ 1 s r hs hr _ _ _ _

/-- Witness for C6. -/
theorem utf8_ascii_agreement_witness :
    ((∀ b ∈ ([72, 105] : Bytes), b < 128) ∧ (∀ b ∈ ([97, 98] : Bytes), b < 128)) ∧
    overlayUTF8 [72, 105] [97, 98] 2 (some 1) = overlay [72, 105] [97, 98] 2 (some 1) :=
  ⟨⟨by decide, by decide⟩,
    utf8_ascii_agreement [72, 105] [97, 98] (by decide) (by decide) 2 (some 1)⟩

/-- C9: a batch of zero rows yields the empty output column, whatever the
shapes of the four arguments; executeImpl returns before dispatching to any
variant (overlay.cpp lines 53-54). -/
theorem zero_rows_empty (u : Bool) (input replace : StrCol) (off : IntCol)
    (len : Option IntCol) :
    executeImpl u 0 input replace off len = ⟨[], []⟩ := rfl

/-- C5: default-length property: for every input `s`, replacement `r` and
in-range 1-based offset `o`, the three-argument call `overlay(s, r, o)`
returns the same output as `overlay(s, r, o, length(r))`. -/
theorem default_length_property (s r : Bytes) (o : Int)
    (_h1 : 1 ≤ o) (_h2 : o ≤ (s.length : Int) + 1) :
    overlay s r o none = overlay s r o (some (r.length : Int)) := by
  unfold overlay
  simp only [Option.map_none', Option.map_some']
  simp only [executeImpl, constantConstant, IntCol.isConst, IntCol.constVal,
    IntCol.vecVal, Option.isNone]
  rw [if_neg one_ne_zero, if_neg one_ne_zero]
  unfold variantFull
  rw [if_neg (by intro hc; cases hc.1),
    if_neg (by intro hc; have := hc.2.2; omega)]
  exact runBatch_congr (fun i hi =>
    overlayRow_length_congr false true false false true s r o (-1) 0
      (r.length) 0 (by simp [rowValidLength, getSliceSize]))

/-- Witness for C5. -/
theorem default_length_property_witness :
    ((1 : Int) ≤ 1 ∧ (1 : Int) ≤ (([5, 6] : Bytes).length : Int) + 1) ∧
    overlay [5, 6] [7] 1 none = overlay [5, 6] [7] 1 (some (([7] : Bytes).length : Int)) :=
  ⟨⟨by decide, by decide⟩, default_length_property [5, 6] [7] 1 (by decide) (by decide)⟩

/-- Resolving a negated-from-the-end offset and the equivalent positive
offset gives the same prefix length. -/
lemma getValidOffset_neg (k n : Nat) (hk : k ≤ n) :
    getValidOffset (-(k : Int)) n = getValidOffset ((n : Int) - (k : Int) + 1) n := by
  unfold getValidOffset
  split_ifs <;> omega

/-- C7: negative-offset property: for every input `s`, replacement `r`,
length argument `L` and every `k` with `0 <= k <= length(s)`,
`overlay(s, r, -k, L)` equals `overlay(s, r, length(s) - k + 1, L)`. -/
theorem negative_offset_property (s r : Bytes) (L : Int) (k : Nat)
    (hk : k ≤ s.length) :
    overlay s r (-(k : Int)) (some L)
      = overlay s r ((s.length : Int) - (k : Int) + 1) (some L) := by
  unfold overlay
  simp only [Option.map_some']
  simp only [executeImpl, constantConstant, IntCol.isConst, IntCol.constVal,
    IntCol.vecVal, Option.isNone]
  rw [if_neg one_ne_zero, if_neg one_ne_zero]
  unfold variantFull
  split_ifs <;>
    refine runBatch_congr (fun i hi =>
      overlayRow_offset_congr _ _ _ _ _ _ _ _ _
        (by simp only [getSliceSize, if_neg Bool.false_ne_true]
            exact getValidOffset_neg k s.length hk))

/-- Witness for C7. -/
theorem negative_offset_property_witness :
    (1 ≤ ([8, 9, 10] : Bytes).length) ∧
    overlay [8, 9, 10] [7] (-(1 : Nat) : Int) (some 2)
      = overlay [8, 9, 10] [7] ((([8, 9, 10] : Bytes).length : Int) - (1 : Nat) + 1) (some 2) :=
  ⟨by decide, negative_offset_property [8, 9, 10] [7] 2 1 (by decide)⟩

/-- C8 counterexample: the spec's concrete scenario says
overlay("Hello, World!", "abc", 1) returns "abcello, World!", but the code
removes 3 bytes (the replacement's length) starting at offset 1, so the
output row is not "abcello, World!". -/
theorem overlay_hello_counterexample :
    (overlay [72, 101, 108, 108, 111, 44, 32, 87, 111, 114, 108, 100, 33]
        [97, 98, 99] 1 none).res_data
      ≠ [97, 98, 99, 101, 108, 108, 111, 44, 32, 87, 111, 114, 108, 100, 33, 0] := by
  decide

/-- C8 amended: overlay("Hello, World!", "abc", 1) with no length argument
returns "abclo, World!" (the default removal length 3, the replacement's
length, removes "Hel"), as one zero-terminated output row. -/
theorem overlay_hello_amended :
    overlay [72, 101, 108, 108, 111, 44, 32, 87, 111, 114, 108, 100, 33]
        [97, 98, 99] 1 none
      = ⟨[97, 98, 99, 108, 111, 44, 32, 87, 111, 114, 108, 100, 33, 0], [14]⟩ := by
  decide

/-- One offset is recorded per processed row. -/
lemma runBatch_offsets_length (rows : Nat) (f : Nat → Bytes) :
    (runBatch rows f).res_offsets.length = rows := by
  induction rows with
  | zero => rfl
  | succ n ih =>
    rw [runBatch_succ]
    simp [appendRow, ih]

/-- Invariant maintained by the per-row loop: offsets strictly increase,
the last offset is the buffer size, and every recorded offset points just
past a zero terminator, provided every row ends in a zero byte. -/
lemma runBatch_invariant (rows : Nat) (f : Nat → Bytes)
    (hf : ∀ i, ∃ m, f i = m ++ [0]) :
    (runBatch rows f).res_offsets.Chain' (· < ·) ∧
    (runBatch rows f).res_offsets.getLastD 0 = (runBatch rows f).res_data.length ∧
    ∀ i, i < rows →
      1 ≤ (runBatch rows f).res_offsets.getD i 0 ∧
      (runBatch rows f).res_offsets.getD i 0 ≤ (runBatch rows f).res_data.length ∧
      (runBatch rows f).res_data.getD ((runBatch rows f).res_offsets.getD i 0 - 1) 1 = 0 := by
  induction rows with
  | zero => exact ⟨List.chain'_nil, rfl, fun i hi => absurd hi (by omega)⟩
  | succ n ih =>
    obtain ⟨hchain, hlast, hterm⟩ := ih
    obtain ⟨m, hm⟩ := hf n
    have hflen : (f n).length = m.length + 1 := by rw [hm]; simp
    have hoff_len : (runBatch n f).res_offsets.length = n := runBatch_offsets_length n f
    rw [runBatch_succ]
    refine ⟨?_, ?_, ?_⟩
    · simp only [appendRow]
      rw [List.chain'_append]
      refine ⟨hchain, List.chain'_singleton _, fun x hx y hy => ?_⟩
      simp only [List.head?_cons, Option.mem_def, Option.some.injEq] at hy
      subst hy
      have hx' : (runBatch n f).res_offsets.getLastD 0 = x := by
        rw [List.getLastD_eq_getLast?, Option.mem_def.mp hx]
        rfl
      omega
    · simp only [appendRow]
      rw [List.getLastD_concat, List.length_append]
    · intro i hi
      simp only [appendRow]
      by_cases hi' : i < n
      · rw [List.getD_append _ _ _ i (by omega)]
        obtain ⟨ht1, ht2, ht3⟩ := hterm i hi'
        refine ⟨ht1, by rw [List.length_append]; omega, ?_⟩
        rw [List.getD_append _ _ _ _ (by omega)]
        exact ht3
      · have hie : i = n := by omega
        subst hie
        rw [List.getD_append_right _ _ _ _ (by omega), hoff_len, Nat.sub_self]
        refine ⟨by simp [List.getD_cons_zero]; omega,
          by simp [List.getD_cons_zero, List.length_append], ?_⟩
        simp only [List.getD_cons_zero]
        rw [List.getD_append_right _ _ _ _ (by omega)]
        have e1 : (runBatch i f).res_data.length + (f i).length - 1
            - (runBatch i f).res_data.length = m.length := by omega
        rw [e1, hm, List.getD_append_right _ _ _ _ (by omega), Nat.sub_self]
        rfl

/-- Every spliced row ends in the zero terminator. -/
lemma overlayRow_endsZero (u h3 lic : Bool) (inp rep : Bytes) (o cl rl : Int) :
    ∃ m, overlayRow u h3 lic inp rep o cl rl = m ++ [0] := by
  simp only [overlayRow, spliceUTF8, spliceBytes]
  by_cases hu : u = true
  · rw [if_pos hu]
    exact ⟨_, rfl⟩
  · rw [if_neg hu]
    exact ⟨_, rfl⟩

/-- Every variant instantiation is the per-row loop over some row function
all of whose rows end in the zero terminator. -/
lemma variantFull_eq_runBatch (u h3 oic lic : Bool) (rows : Nat)
    (iAt rAt : Nat → Bytes) (co cl : List Int) (c_o c_l : Int) :
    ∃ f : Nat → Bytes,
      variantFull u h3 oic lic rows iAt rAt co cl c_o c_l = runBatch rows f ∧
      ∀ i, ∃ m, f i = m ++ [0] := by
  unfold variantFull variantBody
  by_cases hg : h3 = false ∧ lic = true ∧ c_l < 0
  · rw [if_pos hg]
    exact ⟨_, rfl, fun i => overlayRow_endsZero _ _ _ _ _ _ _ _⟩
  · rw [if_neg hg]
    exact ⟨_, rfl, fun i => overlayRow_endsZero _ _ _ _ _ _ _ _⟩

/-- Every non-empty batch execution is the per-row loop over a row function
all of whose rows end in the zero terminator. -/
lemma executeImpl_eq_runBatch (u : Bool) (rows : Nat) (input replace : StrCol)
    (off : IntCol) (len : Option IntCol) (h : rows ≠ 0) :
    ∃ f : Nat → Bytes,
      executeImpl u rows input replace off len = runBatch rows f ∧
      ∀ i, ∃ m, f i = m ++ [0] := by
  cases input <;> cases replace <;>
    simp only [executeImpl, if_neg h, constantConstant, constantVector,
      vectorConstant, vectorVector] <;>
    exact variantFull_eq_runBatch _ _ _ _ _ _ _ _ _ _ _

/-- C10: output-batch well-formedness: after executing any non-empty batch,
exactly one offset entry exists per input row, the cumulative end offsets
are strictly increasing, the final offset equals the total number of bytes
written, and the last byte of every row is a zero terminator. -/
theorem output_wellformed (u : Bool) (rows : Nat) (input replace : StrCol)
    (off : IntCol) (len : Option IntCol) (h : 0 < rows) :
    WellFormedOutput rows (executeImpl u rows input replace off len) := by
  obtain ⟨f, heq, hf⟩ := executeImpl_eq_runBatch u rows input replace off len (by omega)
  rw [heq]
  obtain ⟨hchain, hlast, hterm⟩ := runBatch_invariant rows f hf
  exact ⟨runBatch_offsets_length rows f, hchain, hlast,
    fun i hi => ⟨(hterm i hi).1, (hterm i hi).2.2⟩⟩

/-- Witness for C10. -/
theorem output_wellformed_witness :
    0 < 2 ∧
    WellFormedOutput 2 (executeImpl false 2 (StrCol.vec [[1, 2], [3]])
      (StrCol.const [9]) (IntCol.vec [2, -1]) (some (IntCol.const 1))) :=
  ⟨by decide, output_wellformed false 2 (StrCol.vec [[1, 2], [3]])
    (StrCol.const [9]) (IntCol.vec [2, -1]) (some (IntCol.const 1)) (by decide)⟩

end Overlay
